import Mathlib

/-!
Verification of the trading-backtester core: a shallow embedding of
`src/models.py`, `src/engine.py` and `src/strategies.py`.

Numbers that are Python floats/ints are embedded as `ℚ`/`Int` (the code
performs only field arithmetic); Python's `datetime` timestamps are embedded
as `Nat` (only ordering and equality of timestamps matter); the per-symbol
position dictionary is an association list; exceptions become `Except`
values caught exactly where the source catches them.
-/

namespace Backtester

/-- `MarketDataPoint` from `src/models.py`: an immutable market tick. -/
structure MarketDataPoint where
  timestamp : Nat
  symbol : String
  price : ℚ
  deriving Repr, DecidableEq

/-- A strategy signal `(ACTION, SYMBOL, QTY, PRICE)` from `src/strategies.py`. -/
structure Signal where
  action : String
  symbol : String
  quantity : Int
  price : ℚ
  deriving Repr, DecidableEq

/-- `Order` from `src/models.py`: symbol, side, quantity, price plus
execution status fields (`status`, `filled_quantity`, `fill_price`). -/
structure Order where
  symbol : String
  side : String
  quantity : Int
  price : ℚ
  status : String
  filled_quantity : Int
  fill_price : Option ℚ
  deriving Repr, DecidableEq

/-- The `Order.__init__` constructor of `src/models.py`: rejects a side other
than BUY/SELL, a non-positive quantity, or a non-positive price with
`OrderError` (embedded as `Except.error`); otherwise builds a NEW order. -/
def mkOrder (symbol side : String) (quantity : Int) (price : ℚ) :
    Except String Order :=
  if side ≠ "BUY" ∧ side ≠ "SELL" then
    .error "side must be BUY or SELL"
  else if quantity ≤ 0 then
    .error "quantity must be > 0"
  else if price ≤ 0 then
    .error "price must be > 0"
  else
    .ok ⟨symbol, side, quantity, price, "NEW", 0, none⟩

/-- `Engine._validate_order` from `src/engine.py`: re-checks quantity and
price, raising `OrderError` on violation. -/
def validateOrder (o : Order) : Except String Unit :=
  if o.quantity ≤ 0 then .error "quantity must be > 0"
  else if o.price ≤ 0 then .error "price must be > 0"
  else .ok ()

/-- A per-symbol position record `{'quantity': int, 'avg_price': float}`
(the inner dictionaries of `Engine.positions`). -/
structure Position where
  quantity : Int
  avg_price : ℚ
  deriving Repr, DecidableEq

/-- `self.positions.get(symbol, {"quantity": 0, "avg_price": 0.0})`. -/
def lookupPos (ps : List (String × Position)) (sym : String) : Position :=
  match ps.find? (fun p => p.1 = sym) with
  | some p => p.2
  | none => ⟨0, 0⟩

/-- `self.positions[symbol] = position`: update the entry for `sym` in
place if present, otherwise append a new entry. -/
def setPos (ps : List (String × Position)) (sym : String) (pos : Position) :
    List (String × Position) :=
  if ps.any (fun p => p.1 = sym) then
    ps.map (fun p => if p.1 = sym then (sym, pos) else p)
  else
    ps ++ [(sym, pos)]

/-- Model of the run-scoped seeded random generator (Python's `random`
module, external to this repository): a small linear congruential generator.
The specification relies only on the draws being a deterministic function of
the seed and lying in `[0, 1)`. Returns the draw of `random.random()` and
the successor generator state. -/
def randNext (s : Nat) : ℚ × Nat :=
  let s' : Nat := (s * 1103515245 + 12345) % 2 ^ 31
  ((s' : ℚ) / (2 ^ 31 : ℚ), s')

/-- The mutable state of `Engine` from `src/engine.py` (the strategy list is
threaded separately through the run functions, since strategies carry their
own private state). -/
structure EngineState where
  cash : ℚ
  initial_cash : ℚ
  positions : List (String × Position)
  equity_curve : List (Nat × ℚ)
  logs : List String
  execution_failure_rate : ℚ
  rngState : Nat
  deriving Repr, DecidableEq

/-- `Engine.__init__`: fresh ledger with `cash = initial_cash`, empty
positions, equity curve and logs, and the generator seeded with `rng_seed`. -/
def mkEngine (initial_cash : ℚ) (rng_seed : Nat)
    (execution_failure_rate : ℚ) : EngineState :=
  { cash := initial_cash
    initial_cash := initial_cash
    positions := []
    equity_curve := []
    logs := []
    execution_failure_rate := execution_failure_rate
    rngState := rng_seed }

/-- Outcome of one execution attempt: a fill carrying the updated order, or
an `ExecutionError` (embedded as `failed` with its message and the order). -/
inductive ExecResult where
  | filled (o : Order) : ExecResult
  | failed (msg : String) (o : Order) : ExecResult
  deriving Repr, DecidableEq

/-- `Engine._execute_order` from `src/engine.py`. Draws one random number;
if it falls below the failure rate the order fails with no ledger mutation.
Otherwise a BUY updates the weighted average price, increases the position
and decreases cash; a SELL of more than the held quantity fails with no
ledger mutation, and an admissible SELL decreases the position (resetting
the average price when the quantity reaches zero) and increases cash. -/
def executeOrder (e : EngineState) (o : Order) : EngineState × ExecResult :=
  let r := (randNext e.rngState).1
  let e1 := { e with rngState := (randNext e.rngState).2 }
  if r < e1.execution_failure_rate then
    (e1, .failed "simulated execution failure" o)
  else
    let qty : Int := if o.side = "BUY" then o.quantity else -o.quantity
    let position := lookupPos e1.positions o.symbol
    if 0 < qty then
      let total_cost : ℚ := (qty : ℚ) * o.price
      let avg : ℚ :=
        if position.quantity = 0 then o.price
        else ((position.quantity : ℚ) * position.avg_price + total_cost) /
          ((position.quantity : ℚ) + (qty : ℚ))
      let pos' : Position := ⟨position.quantity + qty, avg⟩
      let o' : Order :=
        { o with status := "FILLED", filled_quantity := qty,
                 fill_price := some o.price }
      ({ e1 with cash := e1.cash - total_cost,
                 positions := setPos e1.positions o.symbol pos' },
       .filled o')
    else
      let sell_qty : Int := -qty
      if position.quantity < sell_qty then
        (e1, .failed "attempt to sell more than held" o)
      else
        let newQty : Int := position.quantity - sell_qty
        let pos' : Position :=
          ⟨newQty, if newQty = 0 then 0 else position.avg_price⟩
        let o' : Order :=
          { o with status := "FILLED", filled_quantity := sell_qty,
                   fill_price := some o.price }
        ({ e1 with cash := e1.cash + (sell_qty : ℚ) * o.price,
                   positions := setPos e1.positions o.symbol pos' },
         .filled o')

/-- `Engine._market_value`: cash plus, for every position of non-zero
quantity, quantity times the tick price when the symbols match and the
stored average price otherwise. -/
def marketValue (e : EngineState) (tick : MarketDataPoint) : ℚ :=
  e.positions.foldl
    (fun total p =>
      if p.2.quantity = 0 then total
      else total + (p.2.quantity : ℚ) *
        (if p.1 = tick.symbol then tick.price else p.2.avg_price))
    e.cash

/-- The signal-collection loop of `Engine.run`: invoke each strategy on the
tick in list order; successful strategies extend the combined signal list,
failing ones contribute a log entry; every strategy keeps its updated
state. `step` is the (possibly failing) `generate_signals` of the strategy
type `S`. -/
def collectSignals {S : Type} (step : S → MarketDataPoint → Except String (List Signal) × S) :
    List S → MarketDataPoint → List Signal × List String × List S
  | [], _ => ([], [], [])
  | s :: rest, tick =>
    let r := step s tick
    let acc := collectSignals step rest tick
    match r.1 with
    | .ok new => (new ++ acc.1, acc.2.1, r.2 :: acc.2.2)
    | .error msg => (acc.1, ("Strategy error: " ++ msg) :: acc.2.1, r.2 :: acc.2.2)

/-- The order construction and validation performed inside the single
`try` block of `Engine.run`: `Order(...)` followed by `_validate_order`,
either failure raising `OrderError`. -/
def buildValidated (sig : Signal) : Except String Order :=
  match mkOrder sig.symbol sig.action sig.quantity sig.price with
  | .error msg => .error msg
  | .ok o =>
    match validateOrder o with
    | .error msg => .error msg
    | .ok _ => .ok o

/-- The signal-processing loop of `Engine.run`: build and validate an order
from each signal (an `OrderError` is logged and the signal skipped), then
attempt execution (an `ExecutionError` marks the order FAILED and is
logged); processing always continues with the remaining signals. -/
def processSignals (e : EngineState) : List Signal → EngineState
  | [] => e
  | sig :: rest =>
    match buildValidated sig with
    | .error msg =>
      processSignals { e with logs := e.logs ++ ["OrderError: " ++ msg] } rest
    | .ok o =>
      match executeOrder e o with
      | (e', .filled _) => processSignals e' rest
      | (e', .failed msg _) =>
        processSignals { e' with logs := e'.logs ++ ["ExecutionError: " ++ msg] }
          rest

/-- One iteration of the per-tick loop of `Engine.run`: collect signals
(logging strategy failures), process them against the ledger, then append
one equity snapshot `(tick.timestamp, market value)`. -/
def processTick {S : Type} (step : S → MarketDataPoint → Except String (List Signal) × S)
    (e : EngineState) (strats : List S) (tick : MarketDataPoint) :
    EngineState × List S :=
  let c := collectSignals step strats tick
  let e1 := { e with logs := e.logs ++ c.2.1 }
  let e2 := processSignals e1 c.1
  ({ e2 with equity_curve := e2.equity_curve ++ [(tick.timestamp, marketValue e2 tick)] },
   c.2.2)

/-- `Engine.run`: fold the per-tick loop over the input tick sequence. -/
def runEngine {S : Type} (step : S → MarketDataPoint → Except String (List Signal) × S)
    (e : EngineState) (strats : List S) :
    List MarketDataPoint → EngineState × List S
  | [] => (e, strats)
  | tick :: ticks =>
    let r := processTick step e strats tick
    runEngine step r.1 r.2 ticks

/-- `Engine.summary`: initial cash, final cash, positions, equity-curve
length and the first 20 log entries. -/
structure Summary where
  initial_cash : ℚ
  final_cash : ℚ
  positions : List (String × Position)
  equity_curve_length : Nat
  logs : List String
  deriving Repr, DecidableEq

/-- Build the run summary from a final engine state. -/
def summary (e : EngineState) : Summary :=
  ⟨e.initial_cash, e.cash, e.positions, e.equity_curve.length, e.logs.take 20⟩

/-! ### Spec-side helper definitions used to state the claims -/

/-- The reference price of the specification's equity formula: the current
tick's price when the position's symbol matches the tick's symbol, the
position's stored average cost otherwise. -/
def referencePrice (tick : MarketDataPoint) (sym : String) (pos : Position) : ℚ :=
  if sym = tick.symbol then tick.price else pos.avg_price

/-- The specification's equity formula: cash plus the sum over held
positions (non-zero quantity) of quantity times reference price. -/
def equitySpec (e : EngineState) (tick : MarketDataPoint) : ℚ :=
  e.cash +
    ((e.positions.filter (fun p => p.2.quantity ≠ 0)).map
      (fun p => (p.2.quantity : ℚ) * referencePrice tick p.1 p.2)).sum

/-- The per-tick trace of a run: each processed tick paired with the engine
state right after that tick's processing. -/
def tickTrace {S : Type} (step : S → MarketDataPoint → Except String (List Signal) × S)
    (e : EngineState) (strats : List S) :
    List MarketDataPoint → List (MarketDataPoint × EngineState)
  | [] => []
  | tick :: ticks =>
    let r := processTick step e strats tick
    (tick, r.1) :: tickTrace step r.1 r.2 ticks

/-- The signed cash flow of one fill: the buy cost counted positively, the
sell proceeds negatively (so that `initial_cash - final_cash` is the sum of
the flows). -/
def signedFlow (o : Order) : ℚ :=
  if o.side = "BUY" then (o.quantity : ℚ) * o.price
  else -((o.quantity : ℚ) * o.price)

/-- Execute a list of orders in sequence, succeeding only when every single
execution attempt fills (no simulated failure, no sell rejection). -/
def execAll (e : EngineState) : List Order → Option EngineState
  | [] => some e
  | o :: os =>
    match executeOrder e o with
    | (e', .filled _) => execAll e' os
    | (_, .failed _ _) => none

/-- Every position recorded in the ledger has non-negative quantity. -/
def nonnegPositions (e : EngineState) : Prop :=
  ∀ p ∈ e.positions, 0 ≤ p.2.quantity

/-! ### Strategies (`src/strategies.py`) -/

/-- Appending to a `deque(maxlen := cap)`: add the element on the right and
drop from the left whatever exceeds the capacity. -/
def pushCap (cap : Nat) (xs : List ℚ) (x : ℚ) : List ℚ :=
  let ys := xs ++ [x]
  if cap < ys.length then ys.drop (ys.length - cap) else ys

/-- The Python slice `lst[-n:]` for `1 ≤ n`: the last `n` elements. -/
def lastN (n : Nat) (xs : List ℚ) : List ℚ :=
  xs.drop (xs.length - n)

/-- The state of `MovingAverageCrossover`: its configuration, the rolling
price window (`deque(maxlen := long_window)`) and the last emitted signal. -/
structure MACState where
  symbol : String
  short_window : Nat
  long_window : Nat
  prices : List ℚ
  last_signal : Option String
  deriving Repr, DecidableEq

/-- A freshly constructed `MovingAverageCrossover` (empty window, no last
signal); the constructor also requires `short_window < long_window`. -/
def initMAC (symbol : String) (short_window long_window : Nat) : MACState :=
  ⟨symbol, short_window, long_window, [], none⟩

/-- `MovingAverageCrossover.generate_signals`: ignore foreign symbols,
append the price, wait for a full window, then compare the short and long
simple means and emit BUY/SELL with quantity 1 at the tick price unless the
same direction was emitted last. -/
def stepMAC (st : MACState) (tick : MarketDataPoint) : List Signal × MACState :=
  if tick.symbol ≠ st.symbol then ([], st)
  else
    let ps := pushCap st.long_window st.prices tick.price
    if ps.length < st.long_window then ([], { st with prices := ps })
    else
      let long_ma := (lastN st.long_window ps).sum / (st.long_window : ℚ)
      let short_ma := (lastN st.short_window ps).sum / (st.short_window : ℚ)
      if long_ma < short_ma ∧ st.last_signal ≠ some "BUY" then
        ([⟨"BUY", st.symbol, 1, tick.price⟩],
         { st with prices := ps, last_signal := some "BUY" })
      else if short_ma < long_ma ∧ st.last_signal ≠ some "SELL" then
        ([⟨"SELL", st.symbol, 1, tick.price⟩],
         { st with prices := ps, last_signal := some "SELL" })
      else ([], { st with prices := ps })

/-- The state of `MomentumStrategy`: its configuration and the rolling
price window (`deque(maxlen := lookback + 1)`). -/
structure MomState where
  symbol : String
  lookback : Nat
  threshold : ℚ
  prices : List ℚ
  deriving Repr, DecidableEq

/-- A freshly constructed `MomentumStrategy` (empty window). -/
def initMom (symbol : String) (lookback : Nat) (threshold : ℚ) : MomState :=
  ⟨symbol, lookback, threshold, []⟩

/-- `MomentumStrategy.generate_signals`: ignore foreign symbols, append the
price, wait for a full window, then compute `ret = latest/oldest - 1` and
emit BUY above the threshold, SELL below its negation, with quantity 1 at
the tick price. -/
def stepMom (st : MomState) (tick : MarketDataPoint) : List Signal × MomState :=
  if tick.symbol ≠ st.symbol then ([], st)
  else
    let ps := pushCap (st.lookback + 1) st.prices tick.price
    if ps.length ≤ st.lookback then ([], { st with prices := ps })
    else
      let current := ps.getLast?.getD 0
      let prev := ps.head?.getD 0
      let ret := current / prev - 1
      if st.threshold < ret then
        ([⟨"BUY", st.symbol, 1, tick.price⟩], { st with prices := ps })
      else if ret < -st.threshold then
        ([⟨"SELL", st.symbol, 1, tick.price⟩], { st with prices := ps })
      else ([], { st with prices := ps })

/-- The specification's description of the momentum emission on the tick of
index `i` of a price sequence `qs` for the tracked symbol: nothing while
fewer than `lookback + 1` prices have been seen, otherwise Buy when
`qs[i]/qs[i - lookback] - 1` exceeds the threshold and Sell when it lies
below its negation. -/
def momSpecEmission (sym : String) (lb : Nat) (θ : ℚ) (qs : List ℚ)
    (i : Nat) : List Signal :=
  if i < lb then []
  else
    let ret := qs.getD i 0 / qs.getD (i - lb) 0 - 1
    if θ < ret then [⟨"BUY", sym, 1, qs.getD i 0⟩]
    else if ret < -θ then [⟨"SELL", sym, 1, qs.getD i 0⟩]
    else []

/-- Run a (total) strategy over a tick sequence, collecting the emissions
of each tick in order. -/
def runStrat {σ : Type} (step : σ → MarketDataPoint → List Signal × σ) :
    σ → List MarketDataPoint → List (List Signal) × σ
  | st, [] => ([], st)
  | st, t :: ts =>
    let r := step st t
    let rest := runStrat step r.2 ts
    (r.1 :: rest.1, rest.2)

/-! ### Theorems -/

attribute [local semireducible] Rat.mul Rat.inv Rat.add Rat.sub

theorem lookupPos_cons (q : String × Position) (qs : List (String × Position))
    (s : String) :
    lookupPos (q :: qs) s = if q.1 = s then q.2 else lookupPos qs s := by
  by_cases hq : q.1 = s <;> simp [lookupPos, List.find?_cons, hq]

theorem lookupPos_map_update (s : String) (pos : Position) :
    ∀ ps : List (String × Position), ps.any (fun p => p.1 = s) →
      lookupPos (ps.map (fun p => if p.1 = s then (s, pos) else p)) s = pos := by
  intro ps
  induction ps with
  | nil => intro h; simp at h
  | cons q qs ih =>
    intro h
    by_cases hq : q.1 = s
    · simp [List.map_cons, if_pos hq, lookupPos_cons]
    · have h' : qs.any (fun p => p.1 = s) := by
        simpa [List.any_cons, hq] using h
      simpa [List.map_cons, if_neg hq, lookupPos_cons, hq] using ih h'

theorem lookupPos_append_single (s : String) (pos : Position) :
    ∀ ps : List (String × Position), ¬ ps.any (fun p => p.1 = s) →
      lookupPos (ps ++ [(s, pos)]) s = pos := by
  intro ps
  induction ps with
  | nil => intro _; simp [lookupPos]
  | cons q qs ih =>
    intro h
    have hq : ¬ q.1 = s := fun hc => h (by simp [List.any_cons, hc])
    have h' : ¬ qs.any (fun p => p.1 = s) := fun hc => h (by simp [List.any_cons, hc])
    simpa [List.cons_append, lookupPos_cons, hq] using ih h'

theorem lookupPos_setPos_self (ps : List (String × Position)) (s : String)
    (pos : Position) : lookupPos (setPos ps s pos) s = pos := by
  by_cases h : ps.any (fun p => p.1 = s)
  · rw [setPos, if_pos h]; exact lookupPos_map_update s pos ps h
  · rw [setPos, if_neg h]; exact lookupPos_append_single s pos ps h

/-- C1: for every ledger state and every validated Sell order whose
quantity exceeds the quantity currently held for that symbol, execution
fails with `ExecutionError` and the ledger is left exactly as it was:
cash, the full position map, and in particular the position's quantity
and average price for that symbol, are unchanged by the failed attempt. -/
theorem sell_overdraw_rejected (e : EngineState) (o : Order)
    (hside : o.side = "SELL") (hq : 0 < o.quantity)
    (hover : (lookupPos e.positions o.symbol).quantity < o.quantity) :
    (∃ msg o', (executeOrder e o).2 = ExecResult.failed msg o') ∧
    (executeOrder e o).1.cash = e.cash ∧
    (executeOrder e o).1.positions = e.positions ∧
    (lookupPos (executeOrder e o).1.positions o.symbol).quantity
      = (lookupPos e.positions o.symbol).quantity ∧
    (lookupPos (executeOrder e o).1.positions o.symbol).avg_price
      = (lookupPos e.positions o.symbol).avg_price := by
  have hneg : ¬ (0 : Int) < -o.quantity := by omega
  by_cases hr : (randNext e.rngState).1 < e.execution_failure_rate
  · simp [executeOrder, hr]
  · simp [executeOrder, hr, hside, hneg, hover]

/-- C1 witness: a concrete overdrawn sell (10 units held, 20 requested)
fails and leaves the ledger untouched. -/
theorem sell_overdraw_rejected_witness :
    (∃ msg o',
      (executeOrder
        { mkEngine 100000 0 0 with positions := [("SYM", ⟨10, 50⟩)] }
        ⟨"SYM", "SELL", 20, 60, "NEW", 0, none⟩).2 = ExecResult.failed msg o') ∧
    (executeOrder
        { mkEngine 100000 0 0 with positions := [("SYM", ⟨10, 50⟩)] }
        ⟨"SYM", "SELL", 20, 60, "NEW", 0, none⟩).1.cash
      = ({ mkEngine 100000 0 0 with positions := [("SYM", ⟨10, 50⟩)] } : EngineState).cash ∧
    (executeOrder
        { mkEngine 100000 0 0 with positions := [("SYM", ⟨10, 50⟩)] }
        ⟨"SYM", "SELL", 20, 60, "NEW", 0, none⟩).1.positions
      = ({ mkEngine 100000 0 0 with positions := [("SYM", ⟨10, 50⟩)] } : EngineState).positions ∧
    (lookupPos (executeOrder
        { mkEngine 100000 0 0 with positions := [("SYM", ⟨10, 50⟩)] }
        ⟨"SYM", "SELL", 20, 60, "NEW", 0, none⟩).1.positions "SYM").quantity
      = (lookupPos ({ mkEngine 100000 0 0 with positions := [("SYM", ⟨10, 50⟩)] } : EngineState).positions "SYM").quantity ∧
    (lookupPos (executeOrder
        { mkEngine 100000 0 0 with positions := [("SYM", ⟨10, 50⟩)] }
        ⟨"SYM", "SELL", 20, 60, "NEW", 0, none⟩).1.positions "SYM").avg_price
      = (lookupPos ({ mkEngine 100000 0 0 with positions := [("SYM", ⟨10, 50⟩)] } : EngineState).positions "SYM").avg_price :=
  sell_overdraw_rejected
    { mkEngine 100000 0 0 with positions := [("SYM", ⟨10, 50⟩)] }
    ⟨"SYM", "SELL", 20, 60, "NEW", 0, none⟩
    rfl (by decide) (by decide)

/-- C3: a validated Buy order that does not hit the simulated random
failure fills: the position's new average price equals the weighted
average `(existing_qty * existing_avg + quantity * price) /
(existing_qty + quantity)` and equals the price exactly when the existing
quantity is zero; the position quantity increases by the order quantity;
cash decreases by `quantity * price`; and the order ends Filled with
`filled_quantity` the order quantity and `fill_price` the order price. -/
theorem buy_fill_correct (e : EngineState) (o : Order)
    (hside : o.side = "BUY") (hq : 0 < o.quantity)
    (hrand : ¬ (randNext e.rngState).1 < e.execution_failure_rate) :
    ∃ o', (executeOrder e o).2 = ExecResult.filled o' ∧
      o'.status = "FILLED" ∧ o'.filled_quantity = o.quantity ∧
      o'.fill_price = some o.price ∧
      (executeOrder e o).1.cash = e.cash - (o.quantity : ℚ) * o.price ∧
      (lookupPos (executeOrder e o).1.positions o.symbol).quantity
        = (lookupPos e.positions o.symbol).quantity + o.quantity ∧
      (lookupPos (executeOrder e o).1.positions o.symbol).avg_price
        = (((lookupPos e.positions o.symbol).quantity : ℚ)
              * (lookupPos e.positions o.symbol).avg_price
            + (o.quantity : ℚ) * o.price) /
          (((lookupPos e.positions o.symbol).quantity : ℚ) + (o.quantity : ℚ)) ∧
      ((lookupPos e.positions o.symbol).quantity = 0 →
        (lookupPos (executeOrder e o).1.positions o.symbol).avg_price = o.price) := by
  have hqQ : ((o.quantity : ℚ)) ≠ 0 := by
    exact_mod_cast (by omega : o.quantity ≠ 0)
  by_cases hz : (lookupPos e.positions o.symbol).quantity = 0
  · simp [executeOrder, hside, hrand, hq, hz, lookupPos_setPos_self]
    rw [mul_div_cancel_left₀ _ hqQ]
  · simp [executeOrder, hside, hrand, hq, hz, lookupPos_setPos_self]

/-- C3 witness: a concrete Buy of 10 units at price 50 from a fresh
100000-cash engine with failure rate 0 fills as described. -/
theorem buy_fill_correct_witness :
    ∃ o', (executeOrder (mkEngine 100000 0 0)
        ⟨"SYM", "BUY", 10, 50, "NEW", 0, none⟩).2 = ExecResult.filled o' ∧
      o'.status = "FILLED" ∧
      o'.filled_quantity = (⟨"SYM", "BUY", 10, 50, "NEW", 0, none⟩ : Order).quantity ∧
      o'.fill_price = some (⟨"SYM", "BUY", 10, 50, "NEW", 0, none⟩ : Order).price ∧
      (executeOrder (mkEngine 100000 0 0)
          ⟨"SYM", "BUY", 10, 50, "NEW", 0, none⟩).1.cash
        = (mkEngine 100000 0 0).cash - ((10 : Int) : ℚ) * 50 ∧
      (lookupPos (executeOrder (mkEngine 100000 0 0)
          ⟨"SYM", "BUY", 10, 50, "NEW", 0, none⟩).1.positions "SYM").quantity
        = (lookupPos (mkEngine 100000 0 0).positions "SYM").quantity + 10 ∧
      (lookupPos (executeOrder (mkEngine 100000 0 0)
          ⟨"SYM", "BUY", 10, 50, "NEW", 0, none⟩).1.positions "SYM").avg_price
        = (((lookupPos (mkEngine 100000 0 0).positions "SYM").quantity : ℚ)
              * (lookupPos (mkEngine 100000 0 0).positions "SYM").avg_price
            + ((10 : Int) : ℚ) * 50) /
          (((lookupPos (mkEngine 100000 0 0).positions "SYM").quantity : ℚ)
            + ((10 : Int) : ℚ)) ∧
      ((lookupPos (mkEngine 100000 0 0).positions "SYM").quantity = 0 →
        (lookupPos (executeOrder (mkEngine 100000 0 0)
            ⟨"SYM", "BUY", 10, 50, "NEW", 0, none⟩).1.positions "SYM").avg_price
          = 50) :=
  buy_fill_correct (mkEngine 100000 0 0)
    ⟨"SYM", "BUY", 10, 50, "NEW", 0, none⟩ rfl (by decide) (by decide)

/-- C4: a validated Sell order of at most the held quantity that does not
hit the simulated random failure fills: the position quantity decreases by
the sell quantity, the average cost resets to zero exactly when the
quantity reaches zero (and is kept otherwise), cash increases by
`quantity * price`, and the order ends Filled with `filled_quantity` the
sell quantity and `fill_price` the order price. Moreover, in the concrete
scenario, from cash 100000 a Buy of 10 units at price 50 yields position
`⟨10, 50⟩` and cash 99500, and the subsequent Sell of 10 units at price 60
yields position `⟨0, 0⟩` and cash 100100. -/
theorem sell_fill_correct (e : EngineState) (o : Order)
    (hside : o.side = "SELL") (hq : 0 < o.quantity)
    (hheld : o.quantity ≤ (lookupPos e.positions o.symbol).quantity)
    (hrand : ¬ (randNext e.rngState).1 < e.execution_failure_rate) :
    ((∃ o', (executeOrder e o).2 = ExecResult.filled o' ∧
      o'.status = "FILLED" ∧ o'.filled_quantity = o.quantity ∧
      o'.fill_price = some o.price) ∧
    (executeOrder e o).1.cash = e.cash + (o.quantity : ℚ) * o.price ∧
    (lookupPos (executeOrder e o).1.positions o.symbol).quantity
      = (lookupPos e.positions o.symbol).quantity - o.quantity ∧
    ((lookupPos e.positions o.symbol).quantity - o.quantity = 0 →
      (lookupPos (executeOrder e o).1.positions o.symbol).avg_price = 0) ∧
    ((lookupPos e.positions o.symbol).quantity - o.quantity ≠ 0 →
      (lookupPos (executeOrder e o).1.positions o.symbol).avg_price
        = (lookupPos e.positions o.symbol).avg_price)) ∧
    (lookupPos (executeOrder (mkEngine 100000 0 0)
        ⟨"SYM", "BUY", 10, 50, "NEW", 0, none⟩).1.positions "SYM" = ⟨10, 50⟩ ∧
     (executeOrder (mkEngine 100000 0 0)
        ⟨"SYM", "BUY", 10, 50, "NEW", 0, none⟩).1.cash = 99500 ∧
     lookupPos (executeOrder
        (executeOrder (mkEngine 100000 0 0)
          ⟨"SYM", "BUY", 10, 50, "NEW", 0, none⟩).1
        ⟨"SYM", "SELL", 10, 60, "NEW", 0, none⟩).1.positions "SYM" = ⟨0, 0⟩ ∧
     (executeOrder
        (executeOrder (mkEngine 100000 0 0)
          ⟨"SYM", "BUY", 10, 50, "NEW", 0, none⟩).1
        ⟨"SYM", "SELL", 10, 60, "NEW", 0, none⟩).1.cash = 100100) := by
  have hneg : ¬ (0 : Int) < -o.quantity := by omega
  have hguard : ¬ (lookupPos e.positions o.symbol).quantity < o.quantity :=
    not_lt.mpr hheld
  refine ⟨?_, by decide⟩
  by_cases hz : (lookupPos e.positions o.symbol).quantity - o.quantity = 0
  · simp [executeOrder, hside, hrand, hneg, hguard, hz, lookupPos_setPos_self]
  · simp [executeOrder, hside, hrand, hneg, hguard, hz, lookupPos_setPos_self]

/-- C4 witness: a concrete Sell of 10 units at price 60 against a held
position of 10 units fills, empties the position and credits the cash. -/
theorem sell_fill_correct_witness :
    ((∃ o', (executeOrder
        { mkEngine 100000 0 0 with positions := [("SYM", ⟨10, 50⟩)] }
        ⟨"SYM", "SELL", 10, 60, "NEW", 0, none⟩).2 = ExecResult.filled o' ∧
      o'.status = "FILLED" ∧ o'.filled_quantity = 10 ∧
      o'.fill_price = some 60) ∧
    (executeOrder
        { mkEngine 100000 0 0 with positions := [("SYM", ⟨10, 50⟩)] }
        ⟨"SYM", "SELL", 10, 60, "NEW", 0, none⟩).1.cash
      = ({ mkEngine 100000 0 0 with positions := [("SYM", ⟨10, 50⟩)] } : EngineState).cash
          + ((10 : Int) : ℚ) * 60 ∧
    (lookupPos (executeOrder
        { mkEngine 100000 0 0 with positions := [("SYM", ⟨10, 50⟩)] }
        ⟨"SYM", "SELL", 10, 60, "NEW", 0, none⟩).1.positions "SYM").quantity
      = (lookupPos ({ mkEngine 100000 0 0 with positions := [("SYM", ⟨10, 50⟩)] } : EngineState).positions "SYM").quantity - 10 ∧
    ((lookupPos ({ mkEngine 100000 0 0 with positions := [("SYM", ⟨10, 50⟩)] } : EngineState).positions "SYM").quantity - 10 = 0 →
      (lookupPos (executeOrder
        { mkEngine 100000 0 0 with positions := [("SYM", ⟨10, 50⟩)] }
        ⟨"SYM", "SELL", 10, 60, "NEW", 0, none⟩).1.positions "SYM").avg_price = 0) ∧
    ((lookupPos ({ mkEngine 100000 0 0 with positions := [("SYM", ⟨10, 50⟩)] } : EngineState).positions "SYM").quantity - 10 ≠ 0 →
      (lookupPos (executeOrder
        { mkEngine 100000 0 0 with positions := [("SYM", ⟨10, 50⟩)] }
        ⟨"SYM", "SELL", 10, 60, "NEW", 0, none⟩).1.positions "SYM").avg_price
        = (lookupPos ({ mkEngine 100000 0 0 with positions := [("SYM", ⟨10, 50⟩)] } : EngineState).positions "SYM").avg_price)) ∧
    (lookupPos (executeOrder (mkEngine 100000 0 0)
        ⟨"SYM", "BUY", 10, 50, "NEW", 0, none⟩).1.positions "SYM" = ⟨10, 50⟩ ∧
     (executeOrder (mkEngine 100000 0 0)
        ⟨"SYM", "BUY", 10, 50, "NEW", 0, none⟩).1.cash = 99500 ∧
     lookupPos (executeOrder
        (executeOrder (mkEngine 100000 0 0)
          ⟨"SYM", "BUY", 10, 50, "NEW", 0, none⟩).1
        ⟨"SYM", "SELL", 10, 60, "NEW", 0, none⟩).1.positions "SYM" = ⟨0, 0⟩ ∧
     (executeOrder
        (executeOrder (mkEngine 100000 0 0)
          ⟨"SYM", "BUY", 10, 50, "NEW", 0, none⟩).1
        ⟨"SYM", "SELL", 10, 60, "NEW", 0, none⟩).1.cash = 100100) :=
  sell_fill_correct
    { mkEngine 100000 0 0 with positions := [("SYM", ⟨10, 50⟩)] }
    ⟨"SYM", "SELL", 10, 60, "NEW", 0, none⟩
    rfl (by decide) (by decide) (by decide)

/-- C6: two runs constructed with identical strategies, identical initial
cash, identical seed and identical execution failure rate over the
identical tick sequence produce identical run summaries and identical
equity curves (the embedding is a pure function of these inputs, with the
seeded generator threaded through the execution-failure checks in strict
call order). -/
theorem run_deterministic (S : Type)
    (step : S → MarketDataPoint → Except String (List Signal) × S)
    (strats strats' : List S) (c c' : ℚ) (seed seed' : Nat) (rate rate' : ℚ)
    (ticks : List MarketDataPoint)
    (h1 : strats = strats') (h2 : c = c') (h3 : seed = seed')
    (h4 : rate = rate') :
    summary (runEngine step (mkEngine c seed rate) strats ticks).1
      = summary (runEngine step (mkEngine c' seed' rate') strats' ticks).1 ∧
    (runEngine step (mkEngine c seed rate) strats ticks).1.equity_curve
      = (runEngine step (mkEngine c' seed' rate') strats' ticks).1.equity_curve := by
  subst h1; subst h2; subst h3; subst h4
  exact ⟨rfl, rfl⟩

/-- C6 witness: determinism instantiated at a concrete one-tick run with a
trivial strategy. -/
theorem run_deterministic_witness :
    summary (runEngine (fun (s : Unit) (_ : MarketDataPoint) => (Except.ok [], s))
        (mkEngine 100000 42 0) [()] [⟨0, "S", 1⟩]).1
      = summary (runEngine (fun (s : Unit) (_ : MarketDataPoint) => (Except.ok [], s))
        (mkEngine 100000 42 0) [()] [⟨0, "S", 1⟩]).1 ∧
    (runEngine (fun (s : Unit) (_ : MarketDataPoint) => (Except.ok [], s))
        (mkEngine 100000 42 0) [()] [⟨0, "S", 1⟩]).1.equity_curve
      = (runEngine (fun (s : Unit) (_ : MarketDataPoint) => (Except.ok [], s))
        (mkEngine 100000 42 0) [()] [⟨0, "S", 1⟩]).1.equity_curve :=
  run_deterministic Unit (fun s _ => (Except.ok [], s)) [()] [()]
    100000 100000 42 42 0 0 [⟨0, "S", 1⟩] rfl rfl rfl rfl

theorem executeOrder_initial_cash (e : EngineState) (o : Order) :
    (executeOrder e o).1.initial_cash = e.initial_cash := by
  by_cases hr : (randNext e.rngState).1 < e.execution_failure_rate
  · simp [executeOrder, hr]
  · simp only [executeOrder, if_neg hr]
    repeat' split
    all_goals rfl

theorem executeOrder_filled_cash (e : EngineState) (o : Order)
    (hq : 0 < o.quantity) (h : ∃ o', (executeOrder e o).2 = ExecResult.filled o') :
    (executeOrder e o).1.cash = e.cash - signedFlow o := by
  obtain ⟨o', ho'⟩ := h
  by_cases hr : (randNext e.rngState).1 < e.execution_failure_rate
  · simp [executeOrder, hr] at ho'
  · by_cases hside : o.side = "BUY"
    · simp [executeOrder, hr, hside, hq, signedFlow]
    · have hneg : ¬ (0 : Int) < -o.quantity := by omega
      by_cases hg : (lookupPos e.positions o.symbol).quantity < o.quantity
      · simp [executeOrder, hr, hside, hneg, hg] at ho'
      · simp [executeOrder, hr, hside, hneg, hg, signedFlow]

theorem execAll_cash :
    ∀ (orders : List Order) (e e' : EngineState),
      (∀ o ∈ orders, 0 < o.quantity) → execAll e orders = some e' →
      e'.cash = e.cash - (orders.map signedFlow).sum ∧
      e'.initial_cash = e.initial_cash := by
  intro orders
  induction orders with
  | nil =>
    intro e e' _ h
    simp only [execAll, Option.some_inj] at h
    subst h; simp
  | cons o os ih =>
    intro e e' hq h
    rw [execAll] at h
    cases hx : executeOrder e o with
    | mk e1 res =>
      rw [hx] at h
      cases res with
      | failed msg o2 => simp at h
      | filled o2 =>
        simp only at h
        obtain ⟨ih1, ih2⟩ := ih e1 e' (fun o ho => hq o (List.mem_cons_of_mem _ ho)) h
        have hc : e1.cash = e.cash - signedFlow o := by
          have := executeOrder_filled_cash e o (hq o (List.mem_cons_self _ _))
            ⟨o2, by rw [hx]⟩
          rwa [hx] at this
        have hi : e1.initial_cash = e.initial_cash := by
          have := executeOrder_initial_cash e o
          rwa [hx] at this
        refine ⟨?_, by rw [ih2, hi]⟩
        rw [ih1, hc]
        simp [List.map_cons, List.sum_cons]
        ring

theorem executeOrder_equity_curve (e : EngineState) (o : Order) :
    (executeOrder e o).1.equity_curve = e.equity_curve := by
  by_cases hr : (randNext e.rngState).1 < e.execution_failure_rate
  · simp [executeOrder, hr]
  · simp only [executeOrder, if_neg hr]
    repeat' split
    all_goals rfl

theorem processSignals_equity_curve :
    ∀ (sigs : List Signal) (e : EngineState),
      (processSignals e sigs).equity_curve = e.equity_curve := by
  intro sigs
  induction sigs with
  | nil => intro e; rfl
  | cons sig rest ih =>
    intro e
    rw [processSignals]
    split
    · exact ih _
    · rename_i o heq
      split
      · rename_i e1 o2 hx
        rw [ih e1]
        have := executeOrder_equity_curve e o
        rwa [hx] at this
      · rename_i e1 msg o2 hx
        rw [ih]
        have := executeOrder_equity_curve e o
        rw [hx] at this
        exact this

theorem lookupPos_quantity_nonneg (ps : List (String × Position))
    (h : ∀ p ∈ ps, 0 ≤ p.2.quantity) (s : String) :
    0 ≤ (lookupPos ps s).quantity := by
  unfold lookupPos
  cases hf : ps.find? (fun p => p.1 = s) with
  | none => simp
  | some q => exact h q (List.mem_of_find?_eq_some hf)

theorem nonneg_setPos (ps : List (String × Position)) (s : String)
    (pos : Position) (h : ∀ p ∈ ps, 0 ≤ p.2.quantity)
    (hpos : 0 ≤ pos.quantity) :
    ∀ p ∈ setPos ps s pos, 0 ≤ p.2.quantity := by
  unfold setPos
  split
  · intro p hp
    obtain ⟨a, ha, rfl⟩ := List.mem_map.mp hp
    by_cases ha1 : a.1 = s
    · simpa [ha1] using hpos
    · simpa [ha1] using h a ha
  · intro p hp
    rcases List.mem_append.mp hp with hp | hp
    · exact h p hp
    · rw [List.mem_singleton.mp hp]; exact hpos

theorem executeOrder_nonneg (e : EngineState) (o : Order)
    (h : nonnegPositions e) : nonnegPositions (executeOrder e o).1 := by
  by_cases hr : (randNext e.rngState).1 < e.execution_failure_rate
  · simpa [executeOrder, hr, nonnegPositions] using h
  · have hl : 0 ≤ (lookupPos e.positions o.symbol).quantity :=
      lookupPos_quantity_nonneg e.positions h o.symbol
    by_cases hq : (0 : Int) < (if o.side = "BUY" then o.quantity else -o.quantity)
    · simp only [executeOrder, if_neg hr, if_pos hq, nonnegPositions]
      exact nonneg_setPos _ _ _ h (by simpa using by omega)
    · by_cases hg : (lookupPos e.positions o.symbol).quantity
          < -(if o.side = "BUY" then o.quantity else -o.quantity)
      · simpa [executeOrder, hr, hq, hg, nonnegPositions] using h
      · simp only [executeOrder, if_neg hr, if_neg hq, if_pos, if_neg hg,
          nonnegPositions]
        exact nonneg_setPos _ _ _ h (by simp; omega)

theorem processSignals_nonneg :
    ∀ (sigs : List Signal) (e : EngineState), nonnegPositions e →
      nonnegPositions (processSignals e sigs) := by
  intro sigs
  induction sigs with
  | nil => intro e h; exact h
  | cons sig rest ih =>
    intro e h
    rw [processSignals]
    split
    · exact ih _ h
    · rename_i o heq
      split
      · rename_i e1 o2 hx
        refine ih _ ?_
        have := executeOrder_nonneg e o h
        rwa [hx] at this
      · rename_i e1 msg o2 hx
        refine ih _ ?_
        have := executeOrder_nonneg e o h
        rwa [hx] at this

theorem processTick_nonneg {S : Type}
    (step : S → MarketDataPoint → Except String (List Signal) × S)
    (e : EngineState) (strats : List S) (tick : MarketDataPoint)
    (h : nonnegPositions e) :
    nonnegPositions (processTick step e strats tick).1 :=
  processSignals_nonneg _ _ h

theorem runEngine_nonneg {S : Type}
    (step : S → MarketDataPoint → Except String (List Signal) × S) :
    ∀ (ticks : List MarketDataPoint) (e : EngineState) (strats : List S),
      nonnegPositions e → nonnegPositions (runEngine step e strats ticks).1 := by
  intro ticks
  induction ticks with
  | nil => intro e strats h; exact h
  | cons t ts ih =>
    intro e strats h
    rw [runEngine]
    exact ih _ _ (processTick_nonneg step e strats t h)

/-- C2: ledger conservation. After any sequence of successful Buy/Sell
fills with no failures, `initial_cash - final_cash` equals the net signed
cash flow of the fills exactly (buy costs minus sell proceeds, no drift);
and non-negativity of every position quantity is preserved by every
execution attempt and by every whole run, so it holds in every reachable
ledger state of a run started from non-negative positions. -/
theorem ledger_conservation :
    (∀ (orders : List Order) (e e' : EngineState),
      (∀ o ∈ orders, 0 < o.quantity) → e.cash = e.initial_cash →
      execAll e orders = some e' →
      e.initial_cash - e'.cash = (orders.map signedFlow).sum) ∧
    (∀ (e : EngineState) (o : Order), nonnegPositions e →
      nonnegPositions (executeOrder e o).1) ∧
    (∀ (S : Type) (step : S → MarketDataPoint → Except String (List Signal) × S)
      (e : EngineState) (strats : List S) (ticks : List MarketDataPoint),
      nonnegPositions e → nonnegPositions (runEngine step e strats ticks).1) := by
  refine ⟨?_, executeOrder_nonneg, fun S step e strats ticks h =>
    runEngine_nonneg step ticks e strats h⟩
  intro orders e e' hq hce h
  have := (execAll_cash orders e e' hq h).1
  rw [this, hce]
  ring

/-- C2 witness: conservation instantiated at a concrete one-fill run and
non-negativity at concrete states. -/
theorem ledger_conservation_witness :
    (mkEngine 100000 0 0).initial_cash
        - ((executeOrder (mkEngine 100000 0 0)
            ⟨"SYM", "BUY", 10, 50, "NEW", 0, none⟩).1).cash
      = ([(⟨"SYM", "BUY", 10, 50, "NEW", 0, none⟩ : Order)].map signedFlow).sum ∧
    nonnegPositions (executeOrder (mkEngine 100000 0 0)
      ⟨"SYM", "BUY", 10, 50, "NEW", 0, none⟩).1 ∧
    nonnegPositions (runEngine
      (fun (s : Unit) (_ : MarketDataPoint) => (Except.ok [], s))
      (mkEngine 100000 0 0) [()] [⟨0, "S", 1⟩]).1 :=
  ⟨ledger_conservation.1 [⟨"SYM", "BUY", 10, 50, "NEW", 0, none⟩]
      (mkEngine 100000 0 0)
      (executeOrder (mkEngine 100000 0 0)
        ⟨"SYM", "BUY", 10, 50, "NEW", 0, none⟩).1
      (by simp) rfl (by decide),
   ledger_conservation.2.1 (mkEngine 100000 0 0)
      ⟨"SYM", "BUY", 10, 50, "NEW", 0, none⟩ (by simp [mkEngine, nonnegPositions]),
   ledger_conservation.2.2 Unit (fun s _ => (Except.ok [], s))
      (mkEngine 100000 0 0) [()] [⟨0, "S", 1⟩]
      (by simp [mkEngine, nonnegPositions])⟩

/-- C7: failure isolation of the per-tick loop. A strategy whose signal
generation fails contributes exactly one log entry and no signals, the
remaining strategies are still processed and the ledger is untouched by
signal collection; a signal whose order construction/validation fails with
`OrderError` only appends a log entry (cash and positions unchanged) and
processing continues with the remaining signals; and every tick completes
with exactly one equity snapshot regardless of any recoverable errors, so
no such error escapes the per-tick loop. -/
theorem failure_isolation :
    (∀ (S : Type) (step : S → MarketDataPoint → Except String (List Signal) × S)
      (s : S) (rest : List S) (tick : MarketDataPoint) (msg : String) (s2 : S),
      step s tick = (Except.error msg, s2) →
      collectSignals step (s :: rest) tick =
        ((collectSignals step rest tick).1,
         ("Strategy error: " ++ msg) :: (collectSignals step rest tick).2.1,
         s2 :: (collectSignals step rest tick).2.2)) ∧
    (∀ (e : EngineState) (sig : Signal) (rest : List Signal) (msg : String),
      buildValidated sig = Except.error msg →
      processSignals e (sig :: rest) =
        processSignals { e with logs := e.logs ++ ["OrderError: " ++ msg] } rest) ∧
    (∀ (S : Type) (step : S → MarketDataPoint → Except String (List Signal) × S)
      (e : EngineState) (strats : List S) (tick : MarketDataPoint),
      (processTick step e strats tick).1.equity_curve.length
        = e.equity_curve.length + 1) := by
  refine ⟨?_, ?_, ?_⟩
  · intro S step s rest tick msg s2 h
    simp [collectSignals, h]
  · intro e sig rest msg h
    simp [processSignals, h]
  · intro S step e strats tick
    simp [processTick, processSignals_equity_curve]

/-- C7 witness: isolation instantiated at a concrete failing strategy, a
concrete invalid signal (zero quantity) and a concrete tick. -/
theorem failure_isolation_witness :
    (collectSignals (fun (s : Unit) (_ : MarketDataPoint) => (Except.error "boom", s))
        [(), ()] ⟨0, "S", 1⟩ =
      ((collectSignals (fun (s : Unit) (_ : MarketDataPoint) => (Except.error "boom", s))
          [()] ⟨0, "S", 1⟩).1,
       ("Strategy error: " ++ "boom") :: (collectSignals
          (fun (s : Unit) (_ : MarketDataPoint) => (Except.error "boom", s))
          [()] ⟨0, "S", 1⟩).2.1,
       () :: (collectSignals
          (fun (s : Unit) (_ : MarketDataPoint) => (Except.error "boom", s))
          [()] ⟨0, "S", 1⟩).2.2)) ∧
    (processSignals (mkEngine 100000 0 0) [⟨"BUY", "S", 0, 1⟩] =
      processSignals { mkEngine 100000 0 0 with
        logs := (mkEngine 100000 0 0).logs
          ++ ["OrderError: " ++ "quantity must be > 0"] } []) ∧
    ((processTick (fun (s : Unit) (_ : MarketDataPoint) => (Except.error "boom", s))
        (mkEngine 100000 0 0) [()] ⟨0, "S", 1⟩).1.equity_curve.length
      = (mkEngine 100000 0 0).equity_curve.length + 1) :=
  ⟨failure_isolation.1 Unit (fun s _ => (Except.error "boom", s)) () [()]
      ⟨0, "S", 1⟩ "boom" () rfl,
   failure_isolation.2.1 (mkEngine 100000 0 0) ⟨"BUY", "S", 0, 1⟩ []
      "quantity must be > 0" rfl,
   failure_isolation.2.2 Unit (fun s _ => (Except.error "boom", s))
      (mkEngine 100000 0 0) [()] ⟨0, "S", 1⟩⟩

theorem stepMAC_cases (st : MACState) (tick : MarketDataPoint) :
    (stepMAC st tick).1 = [] ∨
    (stepMAC st tick).1 = [⟨"BUY", st.symbol, 1, tick.price⟩] ∨
    (stepMAC st tick).1 = [⟨"SELL", st.symbol, 1, tick.price⟩] := by
  unfold stepMAC
  dsimp only
  repeat' split
  all_goals simp

theorem stepMom_cases (st : MomState) (tick : MarketDataPoint) :
    (stepMom st tick).1 = [] ∨
    (stepMom st tick).1 = [⟨"BUY", st.symbol, 1, tick.price⟩] ∨
    (stepMom st tick).1 = [⟨"SELL", st.symbol, 1, tick.price⟩] := by
  unfold stepMom
  dsimp only
  repeat' split
  all_goals simp

/-- C10: every signal ever emitted by `MovingAverageCrossover` or
`MomentumStrategy` has quantity exactly 1 and price exactly the triggering
tick's price, and every order successfully built from such a signal trades
a single unit at that price. -/
theorem unit_quantity_signals :
    (∀ (st : MACState) (tick : MarketDataPoint) (sig : Signal),
      sig ∈ (stepMAC st tick).1 → sig.quantity = 1 ∧ sig.price = tick.price) ∧
    (∀ (st : MomState) (tick : MarketDataPoint) (sig : Signal),
      sig ∈ (stepMom st tick).1 → sig.quantity = 1 ∧ sig.price = tick.price) ∧
    (∀ (sig : Signal) (o : Order), sig.quantity = 1 →
      buildValidated sig = Except.ok o → o.quantity = 1 ∧ o.price = sig.price) := by
  refine ⟨?_, ?_, ?_⟩
  · intro st tick sig hmem
    rcases stepMAC_cases st tick with h | h | h <;> rw [h] at hmem <;>
      simp at hmem <;> simp [hmem]
  · intro st tick sig hmem
    rcases stepMom_cases st tick with h | h | h <;> rw [h] at hmem <;>
      simp at hmem <;> simp [hmem]
  · intro sig o h1 h2
    unfold buildValidated at h2
    cases hm : mkOrder sig.symbol sig.action sig.quantity sig.price with
    | error m => rw [hm] at h2; simp at h2
    | ok o1 =>
      rw [hm] at h2
      cases hv : validateOrder o1 with
      | error m => simp [hv] at h2
      | ok u =>
        simp [hv] at h2
        subst h2
        unfold mkOrder at hm
        by_cases d1 : ¬sig.action = "BUY" ∧ ¬sig.action = "SELL"
        · simp [d1] at hm
        · by_cases d2 : sig.quantity ≤ 0
          · simp [d1, d2] at hm
          · by_cases d3 : sig.price ≤ 0
            · simp [d1, d2, d3] at hm
            · simp [d1, d2, d3] at hm
              rw [← hm]
              exact ⟨h1, rfl⟩

/-- C10 witness: a concrete momentum Buy emission carries quantity 1 and
the tick price, a concrete crossover Buy emission does too, and the order
built from it trades one unit at that price. -/
theorem unit_quantity_signals_witness :
    ((⟨"BUY", "S", 1, 2⟩ : Signal).quantity = 1 ∧
      (⟨"BUY", "S", 1, 2⟩ : Signal).price = (⟨5, "S", 2⟩ : MarketDataPoint).price) ∧
    ((⟨"BUY", "S", 1, 103⟩ : Signal).quantity = 1 ∧
      (⟨"BUY", "S", 1, 103⟩ : Signal).price = (⟨5, "S", 103⟩ : MarketDataPoint).price) ∧
    ((⟨"S", "BUY", 1, 103, "NEW", 0, none⟩ : Order).quantity = 1 ∧
      (⟨"S", "BUY", 1, 103, "NEW", 0, none⟩ : Order).price
        = (⟨"BUY", "S", 1, 103⟩ : Signal).price) :=
  ⟨unit_quantity_signals.1 ⟨"S", 1, 2, [1], none⟩ ⟨5, "S", 2⟩
      ⟨"BUY", "S", 1, 2⟩ (by decide),
   unit_quantity_signals.2.1 ⟨"S", 1, 1/100, [100]⟩ ⟨5, "S", 103⟩
      ⟨"BUY", "S", 1, 103⟩ (by decide),
   unit_quantity_signals.2.2 ⟨"BUY", "S", 1, 103⟩
      ⟨"S", "BUY", 1, 103, "NEW", 0, none⟩ rfl rfl⟩

theorem marketValue_fold (tick : MarketDataPoint) :
    ∀ (ps : List (String × Position)) (acc : ℚ),
      ps.foldl (fun total p => if p.2.quantity = 0 then total
          else total + (p.2.quantity : ℚ) *
            (if p.1 = tick.symbol then tick.price else p.2.avg_price)) acc
        = acc + ((ps.filter (fun p => p.2.quantity ≠ 0)).map
            (fun p => (p.2.quantity : ℚ) * referencePrice tick p.1 p.2)).sum := by
  intro ps
  induction ps with
  | nil => intro acc; simp
  | cons q qs ih =>
    intro acc
    by_cases hq : q.2.quantity = 0
    · rw [List.foldl_cons, if_pos hq, ih]
      have hf : (q :: qs).filter (fun p => decide (p.2.quantity ≠ 0))
          = qs.filter (fun p => decide (p.2.quantity ≠ 0)) := by
        simp [List.filter_cons, hq]
      rw [hf]
    · rw [List.foldl_cons, if_neg hq, ih]
      have hf : (q :: qs).filter (fun p => decide (p.2.quantity ≠ 0))
          = q :: qs.filter (fun p => decide (p.2.quantity ≠ 0)) := by
        simp [List.filter_cons, hq]
      rw [hf, List.map_cons, List.sum_cons]
      simp only [referencePrice]
      ring

theorem marketValue_eq_equitySpec (e : EngineState) (tick : MarketDataPoint) :
    marketValue e tick = equitySpec e tick := by
  unfold marketValue equitySpec
  exact marketValue_fold tick e.positions e.cash

theorem processTick_equity {S : Type}
    (step : S → MarketDataPoint → Except String (List Signal) × S)
    (e : EngineState) (strats : List S) (tick : MarketDataPoint) :
    (processTick step e strats tick).1.equity_curve
      = e.equity_curve
        ++ [(tick.timestamp, equitySpec (processTick step e strats tick).1 tick)] := by
  unfold processTick
  dsimp only
  rw [processSignals_equity_curve, marketValue_eq_equitySpec]
  rfl

theorem tickTrace_map_fst {S : Type}
    (step : S → MarketDataPoint → Except String (List Signal) × S) :
    ∀ (ticks : List MarketDataPoint) (e : EngineState) (strats : List S),
      (tickTrace step e strats ticks).map Prod.fst = ticks := by
  intro ticks
  induction ticks with
  | nil => intro e strats; rfl
  | cons t ts ih =>
    intro e strats
    rw [tickTrace]
    dsimp only [List.map_cons]
    rw [ih]

theorem runEngine_equity_curve {S : Type}
    (step : S → MarketDataPoint → Except String (List Signal) × S) :
    ∀ (ticks : List MarketDataPoint) (e : EngineState) (strats : List S),
      (runEngine step e strats ticks).1.equity_curve
        = e.equity_curve ++ (tickTrace step e strats ticks).map
            (fun r => (r.1.timestamp, equitySpec r.2 r.1)) := by
  intro ticks
  induction ticks with
  | nil => intro e strats; simp [runEngine, tickTrace]
  | cons t ts ih =>
    intro e strats
    rw [runEngine, tickTrace]
    dsimp only [List.map_cons]
    rw [ih, processTick_equity]
    simp [List.append_assoc]

/-- C5: after a run, the equity curve is the input curve extended by
exactly one entry per processed tick; the new entries carry the input
ticks' timestamps in input order; and each entry's value is the
specification's equity formula (cash plus quantity times reference price
over held positions) evaluated on the post-tick ledger recorded in the
run's tick trace. -/
theorem equity_curve_correct (S : Type)
    (step : S → MarketDataPoint → Except String (List Signal) × S)
    (e : EngineState) (strats : List S) (ticks : List MarketDataPoint) :
    (runEngine step e strats ticks).1.equity_curve
      = e.equity_curve ++ (tickTrace step e strats ticks).map
          (fun r => (r.1.timestamp, equitySpec r.2 r.1)) ∧
    (tickTrace step e strats ticks).map Prod.fst = ticks ∧
    (runEngine step e strats ticks).1.equity_curve.length
      = e.equity_curve.length + ticks.length ∧
    (runEngine step e strats ticks).1.equity_curve.map Prod.fst
      = e.equity_curve.map Prod.fst ++ ticks.map MarketDataPoint.timestamp := by
  have h1 := runEngine_equity_curve step ticks e strats
  have h2 := tickTrace_map_fst step ticks e strats
  have hlen : (tickTrace step e strats ticks).length = ticks.length := by
    have := congrArg List.length h2
    simpa using this
  refine ⟨h1, h2, ?_, ?_⟩
  · rw [h1, List.length_append, List.length_map, hlen]
  · rw [h1, List.map_append, List.map_map]
    have hts := congrArg (List.map MarketDataPoint.timestamp) h2
    rw [List.map_map] at hts
    rw [← hts]
    rfl

theorem lastN_nil (n : Nat) : lastN n ([] : List ℚ) = [] := by
  unfold lastN
  simp

theorem length_lastN (n : Nat) (xs : List ℚ) :
    (lastN n xs).length = min n xs.length := by
  unfold lastN
  rw [List.length_drop]
  omega

theorem pushCap_lastN (cap : Nat) (hcap : 1 ≤ cap) (xs : List ℚ) (x : ℚ) :
    pushCap cap (lastN cap xs) x = lastN cap (xs ++ [x]) := by
  unfold pushCap lastN
  dsimp only
  by_cases h : xs.length < cap
  · have h0 : xs.length - cap = 0 := by omega
    rw [h0, List.drop_zero]
    have h1 : (xs ++ [x]).length = xs.length + 1 := by simp
    rw [if_neg (by rw [h1]; omega)]
    have h2 : (xs ++ [x]).length - cap = 0 := by rw [h1]; omega
    rw [h2, List.drop_zero]
  · have hlen : (xs.drop (xs.length - cap)).length = cap := by
      rw [List.length_drop]; omega
    have h1 : (xs.drop (xs.length - cap) ++ [x]).length = cap + 1 := by
      simp [hlen]
    rw [if_pos (by rw [h1]; omega)]
    rw [h1]
    have h2 : cap + 1 - cap = 1 := by omega
    rw [h2]
    rw [List.drop_append_of_le_length (by omega : 1 ≤ (xs.drop (xs.length - cap)).length)]
    rw [List.drop_drop]
    have h3 : (xs ++ [x]).length - cap = (xs.length - cap) + 1 := by simp; omega
    rw [h3]
    rw [List.drop_append_of_le_length (by omega : xs.length - cap + 1 ≤ xs.length)]

theorem head_drop_getD (xs : List ℚ) :
    ∀ (k : Nat), k < xs.length → (xs.drop k).head?.getD 0 = xs.getD k 0 := by
  induction xs with
  | nil => intro k h; simp at h
  | cons a l ih =>
    intro k h
    cases k with
    | zero => rfl
    | succ k =>
      rw [List.drop_succ_cons, List.getD_cons_succ]
      exact ih k (by simpa using h)

theorem getD_concat_self (xs : List ℚ) (x : ℚ) :
    (xs ++ [x]).getD xs.length 0 = x := by
  induction xs with
  | nil => rfl
  | cons a l ih =>
    rw [List.cons_append, List.length_cons, List.getD_cons_succ]
    exact ih

theorem getLast?_drop :
    ∀ (xs : List ℚ) (k : Nat), k < xs.length →
      (xs.drop k).getLast? = xs.getLast? := by
  intro xs
  induction xs with
  | nil => intro k h; simp at h
  | cons a l ih =>
    intro k h
    cases k with
    | zero => rfl
    | succ k =>
      cases l with
      | nil => simp at h
      | cons b t =>
        rw [List.drop_succ_cons, List.getLast?_cons_cons]
        exact ih k (by simpa using h)

theorem momSpecEmission_append (sym : String) (lb : Nat) (θ : ℚ)
    (qs more : List ℚ) (i : Nat) (h : i < qs.length) :
    momSpecEmission sym lb θ (qs ++ more) i = momSpecEmission sym lb θ qs i := by
  unfold momSpecEmission
  rw [List.getD_append qs more 0 i h,
    List.getD_append qs more 0 (i - lb) (by omega)]

theorem stepMom_full (st : MomState) (t : MarketDataPoint) (pre : List ℚ)
    (hsym : t.symbol = st.symbol)
    (hpre : st.prices = lastN (st.lookback + 1) pre) :
    stepMom st t
      = (momSpecEmission st.symbol st.lookback st.threshold
           (pre ++ [t.price]) pre.length,
         { st with prices := lastN (st.lookback + 1) (pre ++ [t.price]) }) := by
  unfold stepMom
  dsimp only
  rw [if_neg (by simp [hsym])]
  rw [hpre, pushCap_lastN (st.lookback + 1) (by omega) pre t.price]
  have hlen : (lastN (st.lookback + 1) (pre ++ [t.price])).length
      = min (st.lookback + 1) (pre.length + 1) := by
    rw [length_lastN]; simp
  by_cases hfull : pre.length < st.lookback
  · rw [if_pos (by rw [hlen]; omega)]
    unfold momSpecEmission
    rw [if_pos hfull]
  · rw [if_neg (by rw [hlen]; omega)]
    have hcur : (lastN (st.lookback + 1) (pre ++ [t.price])).getLast?.getD 0
        = t.price := by
      unfold lastN
      rw [getLast?_drop _ _ (by simp; omega), List.getLast?_concat]
      rfl
    have hk : (pre ++ [t.price]).length - (st.lookback + 1)
        = pre.length - st.lookback := by
      simp
    have hprev : (lastN (st.lookback + 1) (pre ++ [t.price])).head?.getD 0
        = (pre ++ [t.price]).getD (pre.length - st.lookback) 0 := by
      unfold lastN
      rw [hk]
      refine head_drop_getD _ _ ?_
      rw [List.length_append]
      simp
      omega
    rw [hcur, hprev]
    by_cases hbuy : st.threshold
        < t.price / (pre ++ [t.price]).getD (pre.length - st.lookback) 0 - 1
    · rw [if_pos hbuy]
      unfold momSpecEmission
      dsimp only
      rw [if_neg hfull, getD_concat_self, if_pos hbuy]
    · by_cases hsell : t.price
          / (pre ++ [t.price]).getD (pre.length - st.lookback) 0 - 1
          < -st.threshold
      · rw [if_neg hbuy, if_pos hsell]
        unfold momSpecEmission
        dsimp only
        rw [if_neg hfull, getD_concat_self, if_neg hbuy, if_pos hsell]
      · rw [if_neg hbuy, if_neg hsell]
        unfold momSpecEmission
        dsimp only
        rw [if_neg hfull, getD_concat_self, if_neg hbuy, if_neg hsell]

theorem runMom_spec :
    ∀ (ts : List MarketDataPoint) (st : MomState) (pre : List ℚ),
      (∀ t ∈ ts, t.symbol = st.symbol) →
      st.prices = lastN (st.lookback + 1) pre →
      ∀ i, i < ts.length →
        (runStrat stepMom st ts).1.getD i []
          = momSpecEmission st.symbol st.lookback st.threshold
              (pre ++ ts.map MarketDataPoint.price) (pre.length + i) := by
  intro ts
  induction ts with
  | nil => intro st pre _ _ i hi; simp at hi
  | cons t ts ih =>
    intro st pre hmatch hpre i hi
    rw [runStrat]
    dsimp only
    rw [stepMom_full st t pre (hmatch t (List.mem_cons_self _ _)) hpre]
    dsimp only
    cases i with
    | zero =>
      rw [List.getD_cons_zero, Nat.add_zero, List.map_cons]
      have happ : pre ++ t.price :: List.map MarketDataPoint.price ts
          = (pre ++ [t.price]) ++ List.map MarketDataPoint.price ts := by
        simp
      rw [happ, momSpecEmission_append st.symbol st.lookback st.threshold
        (pre ++ [t.price]) (List.map MarketDataPoint.price ts) pre.length
        (by simp)]
    | succ i =>
      rw [List.getD_cons_succ]
      have ih' := ih { st with prices := lastN (st.lookback + 1) (pre ++ [t.price]) }
        (pre ++ [t.price])
        (fun t' ht' => hmatch t' (List.mem_cons_of_mem _ ht'))
        rfl i (by simpa using hi)
      dsimp only at ih'
      rw [ih']
      rw [List.map_cons]
      have happ : (pre ++ [t.price]) ++ List.map MarketDataPoint.price ts
          = pre ++ t.price :: List.map MarketDataPoint.price ts := by
        simp
      rw [happ]
      have hidx : (pre ++ [t.price]).length + i = pre.length + (i + 1) := by
        rw [List.length_append]
        simp
        omega
      rw [hidx]

theorem runStrat_length {σ : Type} (step : σ → MarketDataPoint → List Signal × σ) :
    ∀ (ts : List MarketDataPoint) (st : σ),
      (runStrat step st ts).1.length = ts.length := by
  intro ts
  induction ts with
  | nil => intro st; rfl
  | cons t ts ih =>
    intro st
    rw [runStrat]
    dsimp only
    rw [List.length_cons, ih, List.length_cons]

/-- C9: `MomentumStrategy` emits exactly one per-tick emission list per
tick; it emits nothing until it has seen `lookback + 1` prices for its
symbol, and then emits Buy when `(latest/oldest) - 1` exceeds the
threshold and Sell when it lies below the negated threshold (as captured
by `momSpecEmission` over the trailing window). In particular, with
`lookback = 3` and `threshold = 1/100`, prices `[100, 100, 100, 103]`
yield a Buy only on the 4th tick and `[100, 100, 100, 97]` a Sell only on
the 4th tick. -/
theorem momentum_signals (sym : String) (lb : Nat) (θ : ℚ)
    (ticks : List MarketDataPoint) (hmatch : ∀ t ∈ ticks, t.symbol = sym) :
    ((runStrat stepMom (initMom sym lb θ) ticks).1.length = ticks.length ∧
     ∀ i, i < ticks.length →
       (runStrat stepMom (initMom sym lb θ) ticks).1.getD i []
         = momSpecEmission sym lb θ (ticks.map MarketDataPoint.price) i) ∧
    ((runStrat stepMom (initMom "S" 3 (1/100))
        [⟨0, "S", 100⟩, ⟨1, "S", 100⟩, ⟨2, "S", 100⟩, ⟨3, "S", 103⟩]).1
      = [[], [], [], [⟨"BUY", "S", 1, 103⟩]] ∧
     (runStrat stepMom (initMom "S" 3 (1/100))
        [⟨0, "S", 100⟩, ⟨1, "S", 100⟩, ⟨2, "S", 100⟩, ⟨3, "S", 97⟩]).1
      = [[], [], [], [⟨"SELL", "S", 1, 97⟩]]) := by
  refine ⟨⟨runStrat_length _ ticks _, ?_⟩, by decide, by decide⟩
  intro i hi
  have h := runMom_spec ticks (initMom sym lb θ) [] hmatch
    (lastN_nil (lb + 1)).symm i hi
  simpa using h

/-- C9 witness: the momentum theorem instantiated at the concrete
`[100, 100, 100, 103]` tick sequence. -/
theorem momentum_signals_witness :
    ((runStrat stepMom (initMom "S" 3 (1/100))
        [⟨0, "S", 100⟩, ⟨1, "S", 100⟩, ⟨2, "S", 100⟩, ⟨3, "S", 103⟩]).1.length
      = ([⟨0, "S", 100⟩, ⟨1, "S", 100⟩, ⟨2, "S", 100⟩,
          (⟨3, "S", 103⟩ : MarketDataPoint)] : List MarketDataPoint).length ∧
     ∀ i, i < ([⟨0, "S", 100⟩, ⟨1, "S", 100⟩, ⟨2, "S", 100⟩,
          (⟨3, "S", 103⟩ : MarketDataPoint)] : List MarketDataPoint).length →
       (runStrat stepMom (initMom "S" 3 (1/100))
          [⟨0, "S", 100⟩, ⟨1, "S", 100⟩, ⟨2, "S", 100⟩, ⟨3, "S", 103⟩]).1.getD i []
         = momSpecEmission "S" 3 (1/100)
             (([⟨0, "S", 100⟩, ⟨1, "S", 100⟩, ⟨2, "S", 100⟩,
                (⟨3, "S", 103⟩ : MarketDataPoint)] : List MarketDataPoint).map
               MarketDataPoint.price) i) ∧
    ((runStrat stepMom (initMom "S" 3 (1/100))
        [⟨0, "S", 100⟩, ⟨1, "S", 100⟩, ⟨2, "S", 100⟩, ⟨3, "S", 103⟩]).1
      = [[], [], [], [⟨"BUY", "S", 1, 103⟩]] ∧
     (runStrat stepMom (initMom "S" 3 (1/100))
        [⟨0, "S", 100⟩, ⟨1, "S", 100⟩, ⟨2, "S", 100⟩, ⟨3, "S", 97⟩]).1
      = [[], [], [], [⟨"SELL", "S", 1, 97⟩]]) :=
  momentum_signals "S" 3 (1/100)
    [⟨0, "S", 100⟩, ⟨1, "S", 100⟩, ⟨2, "S", 100⟩, ⟨3, "S", 103⟩] (by decide)

theorem sum_lt_card_mul (c : ℚ) :
    ∀ (l : List ℚ), l ≠ [] → (∀ x ∈ l, x < c) →
      l.sum < (l.length : ℚ) * c := by
  intro l
  induction l with
  | nil => intro h; exact absurd rfl h
  | cons a t ih =>
    intro _ h
    rw [List.sum_cons, List.length_cons]
    have ha := h a (List.mem_cons_self _ _)
    by_cases ht : t = []
    · subst ht
      simp
      linarith
    · have hrec := ih ht (fun x hx => h x (List.mem_cons_of_mem _ hx))
      push_cast
      linarith

theorem card_mul_le_sum (c : ℚ) :
    ∀ (l : List ℚ), (∀ x ∈ l, c ≤ x) → (l.length : ℚ) * c ≤ l.sum := by
  intro l
  induction l with
  | nil => intro _; simp
  | cons a t ih =>
    intro h
    rw [List.sum_cons, List.length_cons]
    have ha := h a (List.mem_cons_self _ _)
    have hrec := ih (fun x hx => h x (List.mem_cons_of_mem _ hx))
    push_cast
    linarith

theorem short_mean_gt_long_mean (ps : List ℚ) (s L : Nat) (hs : 1 ≤ s)
    (hsl : s < L) (hlen : ps.length = L) (hpw : ps.Pairwise (· < ·)) :
    ps.sum / (L : ℚ) < (lastN s ps).sum / (s : ℚ) := by
  have hAB : ps = ps.take (L - s) ++ ps.drop (L - s) :=
    (List.take_append_drop _ _).symm
  have hlastN : lastN s ps = ps.drop (L - s) := by
    unfold lastN
    rw [hlen]
  have hAlen : (ps.take (L - s)).length = L - s := by
    rw [List.length_take]
    omega
  have hBlen : (ps.drop (L - s)).length = s := by
    rw [List.length_drop]
    omega
  obtain ⟨c, B', hB⟩ : ∃ c B', ps.drop (L - s) = c :: B' := by
    cases hB : ps.drop (L - s) with
    | nil => rw [hB] at hBlen; simp at hBlen; omega
    | cons c B' => exact ⟨c, B', rfl⟩
  have hpw' : (ps.take (L - s) ++ c :: B').Pairwise (· < ·) := by
    rw [← hB, ← hAB]
    exact hpw
  rw [List.pairwise_append] at hpw'
  obtain ⟨hpwA, hpwB, hcross⟩ := hpw'
  have hAc : ∀ x ∈ ps.take (L - s), x < c :=
    fun x hx => hcross x hx c (List.mem_cons_self _ _)
  have hcB : ∀ x ∈ c :: B', c ≤ x := by
    intro x hx
    rcases List.mem_cons.mp hx with rfl | hx
    · exact le_refl x
    · exact le_of_lt ((List.pairwise_cons.mp hpwB).1 x hx)
  have hAne : ps.take (L - s) ≠ [] := by
    intro hc
    have := congrArg List.length hc
    rw [hAlen] at this
    simp at this
    omega
  have h1 : (ps.take (L - s)).sum < ((L - s : Nat) : ℚ) * c := by
    have := sum_lt_card_mul c (ps.take (L - s)) hAne hAc
    rwa [hAlen] at this
  have h2 : ((s : Nat) : ℚ) * c ≤ (c :: B').sum := by
    have h := card_mul_le_sum c (c :: B') hcB
    have hlen' : (c :: B').length = s := by rw [← hB, hBlen]
    rwa [hlen'] at h
  have hs0 : (0 : ℚ) < s := by exact_mod_cast hs
  have hL0 : (0 : ℚ) < L := by
    have : 0 < L := by omega
    exact_mod_cast this
  have hLs0 : (0 : ℚ) < ((L - s : Nat) : ℚ) := by
    have : 0 < L - s := by omega
    exact_mod_cast this
  have hsum : ps.sum = (ps.take (L - s)).sum + (c :: B').sum := by
    conv_lhs => rw [hAB, hB]
    rw [List.sum_append]
  rw [hlastN, hB, div_lt_div_iff₀ hL0 hs0]
  have hcast : (L : ℚ) = ((L - s : Nat) : ℚ) + (s : ℚ) := by
    have : L - s + s = L := by omega
    exact_mod_cast this.symm
  rw [hsum, hcast]
  nlinarith [mul_lt_mul_of_pos_right h1 hs0,
    mul_le_mul_of_nonneg_left h2 (le_of_lt hLs0)]

theorem pushCap_small (cap : Nat) (xs : List ℚ) (x : ℚ) (h : xs.length < cap) :
    pushCap cap xs x = xs ++ [x] := by
  unfold pushCap
  dsimp only
  rw [if_neg (by simp; omega)]

theorem lastN_of_length (n : Nat) (xs : List ℚ) (h : xs.length ≤ n) :
    lastN n xs = xs := by
  unfold lastN
  rw [Nat.sub_eq_zero_of_le h, List.drop_zero]

theorem getD_append_cons_self (xs ys : List ℚ) (y : ℚ) :
    (xs ++ y :: ys).getD xs.length 0 = y := by
  rw [show xs ++ y :: ys = (xs ++ [y]) ++ ys by simp]
  rw [List.getD_append (xs ++ [y]) ys 0 xs.length (by simp)]
  exact getD_concat_self xs y

theorem runStrat_append {σ : Type} (step : σ → MarketDataPoint → List Signal × σ) :
    ∀ (xs ys : List MarketDataPoint) (st : σ),
      runStrat step st (xs ++ ys)
        = ((runStrat step st xs).1
            ++ (runStrat step (runStrat step st xs).2 ys).1,
           (runStrat step (runStrat step st xs).2 ys).2) := by
  intro xs
  induction xs with
  | nil => intro ys st; simp [runStrat]
  | cons t ts ih =>
    intro ys st
    rw [List.cons_append, runStrat, runStrat]
    dsimp only
    rw [ih]
    rfl

theorem runMAC_fill :
    ∀ (ts : List MarketDataPoint) (st : MACState),
      (∀ t ∈ ts, t.symbol = st.symbol) →
      st.prices.length + ts.length < st.long_window →
      runStrat stepMAC st ts
        = (List.replicate ts.length [],
           { st with prices := st.prices ++ ts.map MarketDataPoint.price }) := by
  intro ts
  induction ts with
  | nil => intro st _ _; simp [runStrat]
  | cons t ts ih =>
    intro st hm hlen
    rw [List.length_cons] at hlen
    have hstep : stepMAC st t = ([], { st with prices := st.prices ++ [t.price] }) := by
      unfold stepMAC
      dsimp only
      rw [if_neg (by simp [hm t (List.mem_cons_self _ _)])]
      rw [pushCap_small st.long_window st.prices t.price (by omega)]
      rw [if_pos (by simp; omega)]
    rw [runStrat]
    rw [hstep]
    rw [ih { st with prices := st.prices ++ [t.price] }
      (fun t' ht' => hm t' (List.mem_cons_of_mem _ ht'))
      (by simp; omega)]
    rw [List.length_cons, List.replicate_succ, List.map_cons]
    simp

theorem runMAC_steady :
    ∀ (ts : List MarketDataPoint) (st : MACState),
      (∀ t ∈ ts, t.symbol = st.symbol) →
      st.last_signal = some "BUY" →
      st.prices.length = st.long_window →
      1 ≤ st.short_window → st.short_window < st.long_window →
      (st.prices ++ ts.map MarketDataPoint.price).Pairwise (· < ·) →
      (runStrat stepMAC st ts).1 = List.replicate ts.length [] := by
  intro ts
  induction ts with
  | nil => intro st _ _ _ _ _ _; rfl
  | cons t ts ih =>
    intro st hm hlast hplen hsw hswl hpw
    have hL1 : 1 ≤ st.long_window := by omega
    have hprices_ne : st.prices ≠ [] := by
      intro hc
      have := congrArg List.length hc
      rw [hplen] at this
      simp at this
      omega
    have hps : pushCap st.long_window st.prices t.price
        = st.prices.drop 1 ++ [t.price] := by
      have h1 : lastN st.long_window st.prices = st.prices :=
        lastN_of_length _ _ (le_of_eq hplen)
      conv_lhs => rw [← h1]
      rw [pushCap_lastN st.long_window hL1 st.prices t.price]
      unfold lastN
      have h2 : (st.prices ++ [t.price]).length - st.long_window = 1 := by
        simp [hplen]
      rw [h2, List.drop_append_of_le_length (by omega)]
    have hpslen : (st.prices.drop 1 ++ [t.price]).length = st.long_window := by
      rw [List.length_append, List.length_drop]
      simp
      omega
    have hfull_pw : (st.prices.drop 1 ++ [t.price])
        ++ ts.map MarketDataPoint.price
        = (st.prices ++ t.price :: ts.map MarketDataPoint.price).drop 1 := by
      rw [List.drop_append_of_le_length (by omega)]
      simp
    have hpw_tail : ((st.prices.drop 1 ++ [t.price])
        ++ ts.map MarketDataPoint.price).Pairwise (· < ·) := by
      rw [hfull_pw]
      refine List.Pairwise.sublist (List.drop_sublist 1 _) ?_
      simpa using hpw
    have hpw_ps : (st.prices.drop 1 ++ [t.price]).Pairwise (· < ·) :=
      List.Pairwise.sublist (List.sublist_append_left _ _) hpw_tail
    have hma := short_mean_gt_long_mean (st.prices.drop 1 ++ [t.price])
      st.short_window st.long_window hsw hswl hpslen hpw_ps
    have hstep : stepMAC st t
        = ([], { st with prices := st.prices.drop 1 ++ [t.price] }) := by
      unfold stepMAC
      dsimp only
      rw [if_neg (by simp [hm t (List.mem_cons_self _ _)])]
      rw [hps]
      rw [if_neg (by omega)]
      have hlast_eq : lastN st.long_window (st.prices.drop 1 ++ [t.price])
          = st.prices.drop 1 ++ [t.price] :=
        lastN_of_length _ _ (le_of_eq hpslen)
      rw [hlast_eq]
      rw [if_neg (by
        rw [hlast]
        intro hc
        exact hc.2 rfl)]
      rw [if_neg (by
        intro hc
        exact absurd hc.1 (lt_asymm hma))]
    rw [runStrat]
    rw [hstep]
    rw [ih { st with prices := st.prices.drop 1 ++ [t.price] }
      (fun t' ht' => hm t' (List.mem_cons_of_mem _ ht'))
      hlast hpslen hsw hswl hpw_tail]
    rw [List.length_cons, List.replicate_succ]

theorem stepMAC_first_buy (st : MACState) (t : MarketDataPoint)
    (hsym : t.symbol = st.symbol)
    (hlast : st.last_signal = none)
    (hplen : st.prices.length + 1 = st.long_window)
    (hsw : 1 ≤ st.short_window) (hswl : st.short_window < st.long_window)
    (hpw : (st.prices ++ [t.price]).Pairwise (· < ·)) :
    stepMAC st t
      = ([⟨"BUY", st.symbol, 1, t.price⟩],
         { st with prices := st.prices ++ [t.price],
                   last_signal := some "BUY" }) := by
  unfold stepMAC
  dsimp only
  rw [if_neg (by simp [hsym])]
  rw [pushCap_small _ _ _ (by omega)]
  rw [if_neg (by simp; omega)]
  have hlen2 : (st.prices ++ [t.price]).length = st.long_window := by
    simp
    omega
  have hma := short_mean_gt_long_mean (st.prices ++ [t.price])
    st.short_window st.long_window hsw hswl hlen2 hpw
  rw [lastN_of_length _ _ (le_of_eq hlen2)]
  rw [if_pos ⟨hma, by rw [hlast]; simp⟩]

theorem runMAC_key (sym : String) (s L : Nat) (hs : 1 ≤ s) (hsl : s < L) :
    ∀ (A : List MarketDataPoint) (b : MarketDataPoint) (C : List MarketDataPoint),
      A.length = L - 1 →
      (∀ t ∈ A ++ b :: C, t.symbol = sym) →
      (((A ++ b :: C).map MarketDataPoint.price).Pairwise (· < ·)) →
      (runStrat stepMAC (initMAC sym s L) (A ++ b :: C)).1
        = List.replicate (L - 1) []
          ++ [⟨"BUY", sym, 1, b.price⟩] :: List.replicate C.length [] := by
  intro A b C hAlen hm hpw
  rw [runStrat_append]
  rw [runMAC_fill A (initMAC sym s L)
    (fun t ht => hm t (List.mem_append_left _ ht))
    (by simp [initMAC]; omega)]
  dsimp only [initMAC, List.nil_append]
  rw [runStrat]
  have hpwA : (A.map MarketDataPoint.price ++ [b.price]).Pairwise (· < ·) := by
    refine List.Pairwise.sublist ?_ (by simpa using hpw)
    exact List.Sublist.append (List.Sublist.refl _)
      (List.cons_sublist_cons.mpr (List.nil_sublist _))
  rw [stepMAC_first_buy
    ⟨sym, s, L, A.map MarketDataPoint.price, none⟩ b
    (hm b (List.mem_append_right _ (List.mem_cons_self _ _)))
    rfl (by simp [hAlen]; omega) hs hsl hpwA]
  dsimp only
  rw [runMAC_steady C
    ⟨sym, s, L, A.map MarketDataPoint.price ++ [b.price], some "BUY"⟩
    (fun t ht => hm t (List.mem_append_right _ (List.mem_cons_of_mem _ ht)))
    rfl
    (by simp [hAlen]; omega)
    hs hsl
    (by simpa using hpw)]
  rw [hAlen]

/-- C8: `MovingAverageCrossover` emits no signal on any tick before it has
seen `long_window` prices for its symbol; and over any strictly increasing
price sequence for its symbol of length at least `long_window` (with
well-formed windows `1 ≤ short_window < long_window`), the first signal it
ever emits is a single Buy, on the tick that fills the window, and it
emits nothing (in particular no further Buy) on all subsequent ticks while
the prices keep strictly increasing. -/
theorem mac_first_signal_buy (sym : String) (s L : Nat)
    (ticks : List MarketDataPoint)
    (hs : 1 ≤ s) (hsl : s < L)
    (hmatch : ∀ t ∈ ticks, t.symbol = sym)
    (hmono : (ticks.map MarketDataPoint.price).Pairwise (· < ·))
    (hlen : L ≤ ticks.length) :
    (∀ (st : MACState) (tick : MarketDataPoint),
      st.prices.length + 1 < st.long_window → (stepMAC st tick).1 = []) ∧
    (runStrat stepMAC (initMAC sym s L) ticks).1
      = List.replicate (L - 1) []
        ++ [⟨"BUY", sym, 1, (ticks.map MarketDataPoint.price).getD (L - 1) 0⟩]
          :: List.replicate (ticks.length - L) [] := by
  constructor
  · intro st tick hwin
    unfold stepMAC
    dsimp only
    by_cases hsym : tick.symbol ≠ st.symbol
    · rw [if_pos hsym]
    · rw [if_neg hsym]
      rw [pushCap_small _ _ _ (by omega)]
      rw [if_pos (by simp; omega)]
  · obtain ⟨b, C, hbc⟩ : ∃ b C, ticks.drop (L - 1) = b :: C := by
      cases hd : ticks.drop (L - 1) with
      | nil =>
        exfalso
        have := congrArg List.length hd
        rw [List.length_drop] at this
        simp at this
        omega
      | cons b C => exact ⟨b, C, rfl⟩
    have hticks : ticks = ticks.take (L - 1) ++ b :: C := by
      conv_lhs => rw [← List.take_append_drop (L - 1) ticks]
      rw [hbc]
    have hAlen : (ticks.take (L - 1)).length = L - 1 := by
      rw [List.length_take]
      omega
    have hmap : ticks.map MarketDataPoint.price
        = (ticks.take (L - 1)).map MarketDataPoint.price
          ++ b.price :: C.map MarketDataPoint.price := by
      conv_lhs => rw [hticks]
      rw [List.map_append, List.map_cons]
    have hgetD : (ticks.map MarketDataPoint.price).getD (L - 1) 0 = b.price := by
      rw [hmap]
      have h := getD_append_cons_self
        ((ticks.take (L - 1)).map MarketDataPoint.price)
        (C.map MarketDataPoint.price) b.price
      rw [List.length_map, hAlen] at h
      exact h
    have hClen : C.length = ticks.length - L := by
      have := congrArg List.length hticks
      rw [List.length_append, List.length_cons, hAlen] at this
      omega
    have hm' : ∀ t ∈ ticks.take (L - 1) ++ b :: C, t.symbol = sym := by
      intro t ht
      exact hmatch t (by rw [hticks]; exact ht)
    have hpw' : (((ticks.take (L - 1) ++ b :: C).map
        MarketDataPoint.price).Pairwise (· < ·)) := by
      rw [← hticks]
      exact hmono
    conv_lhs => rw [hticks]
    rw [runMAC_key sym s L hs hsl (ticks.take (L - 1)) b C hAlen hm' hpw']
    rw [hgetD, ← hClen]

/-- C8 witness: the crossover theorem instantiated at a concrete strictly
increasing three-tick sequence with `short_window = 1`, `long_window = 2`:
no signal on the first tick, a Buy on the second, nothing afterwards. -/
theorem mac_first_signal_buy_witness :
    (∀ (st : MACState) (tick : MarketDataPoint),
      st.prices.length + 1 < st.long_window → (stepMAC st tick).1 = []) ∧
    (runStrat stepMAC (initMAC "S" 1 2)
        [⟨0, "S", 1⟩, ⟨1, "S", 2⟩, ⟨2, "S", 3⟩]).1
      = List.replicate (2 - 1) []
        ++ [⟨"BUY", "S", 1,
            (([⟨0, "S", 1⟩, ⟨1, "S", 2⟩,
               (⟨2, "S", 3⟩ : MarketDataPoint)] : List MarketDataPoint).map
              MarketDataPoint.price).getD (2 - 1) 0⟩]
          :: List.replicate (([⟨0, "S", 1⟩, ⟨1, "S", 2⟩,
               (⟨2, "S", 3⟩ : MarketDataPoint)] : List MarketDataPoint).length - 2) [] :=
  mac_first_signal_buy "S" 1 2 [⟨0, "S", 1⟩, ⟨1, "S", 2⟩, ⟨2, "S", 3⟩]
    (by decide) (by decide) (by decide) (by decide) (by decide)

end Backtester
